import Mathlib

/-!
Verification of the ERxn repository (scripts/09_data_sampling.py and
scripts/13_mol_transformer.py) against its natural-language specification.

The Python scripts are shallowly embedded: dataframes become lists of
(row-index, EC-label) pairs or finite sets of row indices, tensors become
functions on `Fin` index types over `ℝ`, and the training loop becomes a
fuel-indexed recursion.  Third-party behaviour that the scripts rely on
(pandas `DataFrame.sample`, the `EarlyStopping` helper that lives outside
the two source files) is modelled where noted.
-/

/-! ## 09_data_sampling.py : balancing and splitting -/

/-- `MIN_SAMPLES = 10` (09_data_sampling.py line 8). -/
def MIN_SAMPLES : ℕ := 10

/-- `MAX_SAMPLES = 100` (09_data_sampling.py line 7).  The constant is defined
but never used anywhere else in the script. -/
def MAX_SAMPLES : ℕ := 100

/-- A dataframe row: (pandas row index, EC label).  EC labels are encoded as
naturals. -/
abbrev Row : Type := ℕ × ℕ

/-- Number of rows of `df` carrying EC label `e`; this is
`df.groupby('EC')['EC'].transform('count')` evaluated at a row with label `e`
(09_data_sampling.py line 40). -/
def countEC (df : List Row) (e : ℕ) : ℕ :=
  (df.filter (fun r => r.2 = e)).length

/-- The low-count filter
`ec_data = ec_data[ec_data.groupby('EC')['EC'].transform('count')>=MIN_SAMPLES]`
(09_data_sampling.py line 40): keep exactly the rows whose EC class has at
least `MIN_SAMPLES` rows in the whole frame. -/
def balanceFilter (df : List Row) : List Row :=
  df.filter (fun r => MIN_SAMPLES ≤ countEC df r.2)

/-- Python's `round` of the rational `num / den` (for `den > 0`): nearest
integer, ties to even.  Used to model the row count drawn by pandas
`DataFrame.sample(frac=f)`, which takes `round(frac * len(df))` rows.
For the fractions of 09_data_sampling.py (1/5, 1/4, 1/2) the exact rational
product rounds to the same integer as the script's float computation:
products of 1/4 and 1/2 are exact in binary, and products `n/5` have
fractional part in 0, .2, .4, .6, .8, so the float error (about `2⁻⁵⁰·n`)
never crosses a rounding boundary. -/
def pyRound (num den : ℤ) : ℤ :=
  let f : ℤ := Int.fdiv num den
  let r : ℤ := num - f * den
  if 2 * r < den then f
  else if den < 2 * r then f + 1
  else if f % 2 = 0 then f else f + 1

/-- Modelled from the pandas documentation: `df.sample(frac=num/den)` returns
`round(num/den * len(df))` rows of `df` (pandas is a third-party dependency,
not part of this repository). -/
def sampleSize (num den : ℤ) (n : ℕ) : ℕ :=
  (pyRound (num * n) den).toNat

/-- Size of `test = df.sample(frac=0.2, random_state=1)`
(09_data_sampling.py lines 63 and 77) for a class of `n` rows. -/
def testSampleSize (n : ℕ) : ℕ := sampleSize 1 5 n

/-- Size of `valid`: for classes with `num_data >= 20` it is
`test.sample(frac=0.25)` (line 64), otherwise `test.sample(frac=0.5)`
(line 78). -/
def validSize (n : ℕ) : ℕ :=
  if 20 ≤ n then sampleSize 1 4 (testSampleSize n)
  else sampleSize 1 2 (testSampleSize n)

/-- Size of the final test set `test = test.drop(valid.index)`
(09_data_sampling.py lines 66 and 80). -/
def testFinalSize (n : ℕ) : ℕ := testSampleSize n - validSize n

/-- Size of `train = df.drop(test.index)` (09_data_sampling.py lines 65
and 79). -/
def trainSize (n : ℕ) : ℕ := n - testSampleSize n

/-- The rows of class `l`: `df = data[data['EC'] == label]`
(09_data_sampling.py line 60), with the dataframe given as a finite set `s`
of row indices labelled by `lab`. -/
def classRows (s : Finset ℕ) (lab : ℕ → ℕ) (l : ℕ) : Finset ℕ :=
  s.filter (fun i => lab i = l)

/-- `train = df.drop(test.index)` for class `l` (09_data_sampling.py
lines 65/79), where `t l` is the index set of the 20% sample of class `l`. -/
def classTrain (s : Finset ℕ) (lab : ℕ → ℕ) (t : ℕ → Finset ℕ) (l : ℕ) :
    Finset ℕ :=
  classRows s lab l \ t l

/-- `test = test.drop(valid.index)` for class `l` (09_data_sampling.py
lines 66/80), where `u l` is the sub-sample moved to valid. -/
def classTest (t u : ℕ → Finset ℕ) (l : ℕ) : Finset ℕ := t l \ u l

/-- The valid set of class `l` (09_data_sampling.py lines 64/78). -/
def classValid (u : ℕ → Finset ℕ) (l : ℕ) : Finset ℕ := u l

/-- All train rows accumulated over the label loop
`for label in labels: ... train_x.append(...)` (09_data_sampling.py
lines 59-89). -/
def trainAll (s : Finset ℕ) (lab : ℕ → ℕ) (t : ℕ → Finset ℕ) : Finset ℕ :=
  (s.image lab).biUnion (classTrain s lab t)

/-- All test rows accumulated over the label loop. -/
def testAll (s : Finset ℕ) (lab : ℕ → ℕ) (t u : ℕ → Finset ℕ) : Finset ℕ :=
  (s.image lab).biUnion (classTest t u)

/-- All valid rows accumulated over the label loop. -/
def valAll (s : Finset ℕ) (lab : ℕ → ℕ) (u : ℕ → Finset ℕ) : Finset ℕ :=
  (s.image lab).biUnion (classValid u)

/-- Helper: on rows of label `e` the balance-filter predicate is constant,
so filtering by the label commutes with the balance filter. -/
theorem filter_label_balance (df l : List Row) (e : ℕ) :
    (l.filter (fun r => MIN_SAMPLES ≤ countEC df r.2)).filter
        (fun r => r.2 = e) =
      if MIN_SAMPLES ≤ countEC df e then l.filter (fun r => r.2 = e)
      else [] := by
  induction l with
  | nil => simp
  | cons a l ih =>
      by_cases hae : a.2 = e
      · by_cases hc : MIN_SAMPLES ≤ countEC df e
        · simp [List.filter_cons, hae, hc, ih]
        · simp [List.filter_cons, hae, hc, ih]
      · by_cases hq : MIN_SAMPLES ≤ countEC df a.2
        · simp [List.filter_cons, hae, hq, ih]
        · simp [List.filter_cons, hae, hq, ih]

/-- The rows of label `e` survive the balance filter all-or-nothing. -/
theorem balanceFilter_label (df : List Row) (e : ℕ) :
    (balanceFilter df).filter (fun r => r.2 = e) =
      if MIN_SAMPLES ≤ countEC df e then df.filter (fun r => r.2 = e)
      else [] :=
  filter_label_balance df df e

/-- Class counts in the balanced frame. -/
theorem countEC_balanceFilter (df : List Row) (e : ℕ) :
    countEC (balanceFilter df) e =
      if MIN_SAMPLES ≤ countEC df e then countEC df e else 0 := by
  by_cases hc : MIN_SAMPLES ≤ countEC df e
  · rw [if_pos hc]
    show ((balanceFilter df).filter (fun r => r.2 = e)).length = countEC df e
    rw [balanceFilter_label, if_pos hc]
    rfl
  · rw [if_neg hc]
    show ((balanceFilter df).filter (fun r => r.2 = e)).length = 0
    rw [balanceFilter_label, if_neg hc]
    rfl

/-- Membership in the accumulated train rows (label loop, lines 59-89). -/
theorem mem_trainAll (s : Finset ℕ) (lab : ℕ → ℕ) (t : ℕ → Finset ℕ)
    (x : ℕ) :
    x ∈ trainAll s lab t ↔ x ∈ s ∧ x ∉ t (lab x) := by
  unfold trainAll classTrain classRows
  constructor
  · rintro hx
    obtain ⟨l, _, hxl⟩ := Finset.mem_biUnion.mp hx
    obtain ⟨hmem, hnot⟩ := Finset.mem_sdiff.mp hxl
    obtain ⟨hxs, hlx⟩ := Finset.mem_filter.mp hmem
    exact ⟨hxs, by rw [hlx]; exact hnot⟩
  · rintro ⟨hxs, hnot⟩
    refine Finset.mem_biUnion.mpr ⟨lab x, Finset.mem_image_of_mem lab hxs, ?_⟩
    exact Finset.mem_sdiff.mpr ⟨Finset.mem_filter.mpr ⟨hxs, rfl⟩, hnot⟩

/-- Membership in the accumulated test rows. -/
theorem mem_testAll (s : Finset ℕ) (lab : ℕ → ℕ) (t u : ℕ → Finset ℕ)
    (ht : ∀ l, t l ⊆ classRows s lab l) (x : ℕ) :
    x ∈ testAll s lab t u ↔ x ∈ t (lab x) ∧ x ∉ u (lab x) := by
  unfold testAll classTest
  constructor
  · rintro hx
    obtain ⟨l, _, hxl⟩ := Finset.mem_biUnion.mp hx
    obtain ⟨hxt, hxu⟩ := Finset.mem_sdiff.mp hxl
    have hlx : lab x = l := (Finset.mem_filter.mp (ht l hxt)).2
    rw [hlx]
    exact ⟨hxt, hxu⟩
  · rintro ⟨hxt, hnot⟩
    have hxs : x ∈ s ∧ lab x = lab x :=
      ⟨(Finset.mem_filter.mp (ht (lab x) hxt)).1, rfl⟩
    refine Finset.mem_biUnion.mpr ⟨lab x, Finset.mem_image_of_mem lab hxs.1, ?_⟩
    exact Finset.mem_sdiff.mpr ⟨hxt, hnot⟩

/-- Membership in the accumulated valid rows. -/
theorem mem_valAll (s : Finset ℕ) (lab : ℕ → ℕ) (t u : ℕ → Finset ℕ)
    (ht : ∀ l, t l ⊆ classRows s lab l) (hu : ∀ l, u l ⊆ t l) (x : ℕ) :
    x ∈ valAll s lab u ↔ x ∈ u (lab x) := by
  unfold valAll classValid
  constructor
  · rintro hx
    obtain ⟨l, _, hxl⟩ := Finset.mem_biUnion.mp hx
    have hlx : lab x = l := (Finset.mem_filter.mp (ht l (hu l hxl))).2
    rw [hlx]
    exact hxl
  · rintro hxu
    have hxs : x ∈ s := (Finset.mem_filter.mp (ht (lab x) (hu (lab x) hxu))).1
    exact Finset.mem_biUnion.mpr ⟨lab x, Finset.mem_image_of_mem lab hxs, hxu⟩

/-- C2: the balance filter keeps exactly the classes with at least
`MIN_SAMPLES` rows: (i) every class present in the balanced dataset has at
least `MIN_SAMPLES = 10` rows there, and (ii) every input row whose class has
at least 10 rows is retained. -/
theorem c2_balance_filter (df : List Row) :
    (∀ e, (∃ r ∈ balanceFilter df, r.2 = e) →
        MIN_SAMPLES ≤ countEC (balanceFilter df) e) ∧
    (∀ r ∈ df, MIN_SAMPLES ≤ countEC df r.2 → r ∈ balanceFilter df) := by
  constructor
  · rintro e ⟨r, hr, hre⟩
    have hmem := List.mem_filter.mp hr
    have hcond : MIN_SAMPLES ≤ countEC df r.2 := by simpa using hmem.2
    rw [countEC_balanceFilter, if_pos (hre ▸ hcond)]
    exact hre ▸ hcond
  · intro r hr hc
    exact List.mem_filter.mpr ⟨hr, by simpa using hc⟩

/-- Witness for C2 on a concrete frame: ten rows of class 0 and one row of
class 1. -/
theorem c2_balance_filter_witness :
    MIN_SAMPLES ≤
      countEC (balanceFilter ((List.range 10).map (fun i => (i, 0)) ++
        [(100, 1)])) 0 ∧
    (0, 0) ∈ balanceFilter ((List.range 10).map (fun i => (i, 0)) ++
        [(100, 1)]) :=
  ⟨(c2_balance_filter _).1 0 ⟨(0, 0), by decide, rfl⟩,
   (c2_balance_filter _).2 (0, 0) (by decide) (by decide)⟩

/-- C10: there is no upper cap: the filter only imposes the lower bound, so
every row of a class with more than `MAX_SAMPLES = 100` rows is retained and
the class keeps its full row count in the balanced dataset. -/
theorem c10_no_max_cap (df : List Row) (r : Row) (hr : r ∈ df)
    (hbig : MAX_SAMPLES < countEC df r.2) :
    r ∈ balanceFilter df ∧
      countEC (balanceFilter df) r.2 = countEC df r.2 := by
  have hmin : MIN_SAMPLES ≤ countEC df r.2 :=
    le_trans (show MIN_SAMPLES ≤ MAX_SAMPLES by decide) (le_of_lt hbig)
  refine ⟨List.mem_filter.mpr ⟨hr, by simpa using hmin⟩, ?_⟩
  rw [countEC_balanceFilter, if_pos hmin]

/-- Witness for C10 on a concrete frame with 101 rows of class 0. -/
theorem c10_no_max_cap_witness :
    (0, 0) ∈ balanceFilter ((List.range 101).map (fun i => (i, 0))) ∧
      countEC (balanceFilter ((List.range 101).map (fun i => (i, 0)))) 0 =
        countEC ((List.range 101).map (fun i => (i, 0))) 0 :=
  c10_no_max_cap _ (0, 0) (by decide) (by decide)

/-- C3: for every labelling and any per-class samples `t` (the 20% test
sample of each class) and `u ⊆ t` (the part moved to valid), the label loop
of 09_data_sampling.py places every row of the balanced dataset in exactly
one of train, test, valid: the three accumulated sets are pairwise disjoint
and their union is the whole dataset. -/
theorem c3_split_partition (s : Finset ℕ) (lab : ℕ → ℕ) (t u : ℕ → Finset ℕ)
    (ht : ∀ l, t l ⊆ classRows s lab l) (hu : ∀ l, u l ⊆ t l) :
    Disjoint (trainAll s lab t) (testAll s lab t u) ∧
    Disjoint (trainAll s lab t) (valAll s lab u) ∧
    Disjoint (testAll s lab t u) (valAll s lab u) ∧
    trainAll s lab t ∪ testAll s lab t u ∪ valAll s lab u = s := by
  refine ⟨?_, ?_, ?_, ?_⟩
  · rw [Finset.disjoint_left]
    intro x hx hx'
    exact ((mem_trainAll s lab t x).mp hx).2
      ((mem_testAll s lab t u ht x).mp hx').1
  · rw [Finset.disjoint_left]
    intro x hx hx'
    exact ((mem_trainAll s lab t x).mp hx).2
      (hu (lab x) ((mem_valAll s lab t u ht hu x).mp hx'))
  · rw [Finset.disjoint_left]
    intro x hx hx'
    exact ((mem_testAll s lab t u ht x).mp hx).2
      ((mem_valAll s lab t u ht hu x).mp hx')
  · ext x
    simp only [Finset.mem_union, mem_trainAll s lab t x,
      mem_testAll s lab t u ht x, mem_valAll s lab t u ht hu x]
    constructor
    · rintro ((⟨hs, _⟩ | ⟨hxt, _⟩) | hxu)
      · exact hs
      · exact (Finset.mem_filter.mp (ht (lab x) hxt)).1
      · exact (Finset.mem_filter.mp (ht (lab x) (hu (lab x) hxu))).1
    · intro hxs
      by_cases hxt : x ∈ t (lab x)
      · by_cases hxu : x ∈ u (lab x)
        · exact Or.inr hxu
        · exact Or.inl (Or.inr ⟨hxt, hxu⟩)
      · exact Or.inl (Or.inl ⟨hxs, hxt⟩)

/-- Concrete rows for the C3 witness: dataset 0..3, label = parity. -/
def splitTW (l : ℕ) : Finset ℕ :=
  if l = 0 then {0} else if l = 1 then {1} else ∅

/-- Concrete valid sub-sample for the C3 witness. -/
def splitUW (l : ℕ) : Finset ℕ :=
  if l = 0 then {0} else ∅

/-- Witness for C3 on a concrete 4-row dataset labelled by parity. -/
theorem c3_split_partition_witness :
    Disjoint (trainAll (Finset.range 4) (fun i => i % 2) splitTW)
        (testAll (Finset.range 4) (fun i => i % 2) splitTW splitUW) ∧
    Disjoint (trainAll (Finset.range 4) (fun i => i % 2) splitTW)
        (valAll (Finset.range 4) (fun i => i % 2) splitUW) ∧
    Disjoint (testAll (Finset.range 4) (fun i => i % 2) splitTW splitUW)
        (valAll (Finset.range 4) (fun i => i % 2) splitUW) ∧
    trainAll (Finset.range 4) (fun i => i % 2) splitTW ∪
        testAll (Finset.range 4) (fun i => i % 2) splitTW splitUW ∪
        valAll (Finset.range 4) (fun i => i % 2) splitUW =
      Finset.range 4 := by
  refine c3_split_partition _ _ _ _ ?_ ?_
  · intro l
    by_cases h0 : l = 0
    · subst h0; decide
    · by_cases h1 : l = 1
      · subst h1; decide
      · intro x hx
        simp [splitTW, h0, h1] at hx
  · intro l
    by_cases h0 : l = 0
    · subst h0; decide
    · intro x hx
      simp [splitUW, h0] at hx

/-- C4 counterexample: for a class of 15 rows (< 20 branch), the 20% sample
has `round(0.2·15) = 3` rows, of which `round(0.5·3) = 2` move to valid and
1 stays in test — test and valid do NOT each hold half of the sample, contra
the claim's "test and valid each hold half of the 20% sample". -/
theorem c4_fractions_counterexample :
    testSampleSize 15 = 3 ∧ validSize 15 = 2 ∧ testFinalSize 15 = 1 ∧
      ¬ testFinalSize 15 = validSize 15 := by decide

/-- C4 as amended: sample sizes follow pandas rounding.  For a class of `n`
rows, the test sample holds `round(n/5)` rows; `round(·/4)` of them (class
size ≥ 20) or `round(·/2)` (class size < 20) move to valid — that is
`validSize n` — the final test set keeps the rest of the sample, and train
keeps the rest of the class. -/
theorem c4_split_sizes (n : ℕ) (s t u : Finset ℕ)
    (hs : s.card = n) (hts : t ⊆ s) (htc : t.card = testSampleSize n)
    (hut : u ⊆ t) (huc : u.card = validSize n) :
    (s \ t).card = trainSize n ∧
    (t \ u).card = testFinalSize n ∧
    u.card = validSize n := by
  refine ⟨?_, ?_, huc⟩
  · rw [Finset.card_sdiff hts, hs, htc]
    rfl
  · rw [Finset.card_sdiff hut, htc, huc]
    rfl

/-- Witness for C4 (amended) at a concrete class of 15 rows. -/
theorem c4_split_sizes_witness :
    ((Finset.range 15) \ ({0, 1, 2} : Finset ℕ)).card = trainSize 15 ∧
    (({0, 1, 2} : Finset ℕ) \ ({0, 1} : Finset ℕ)).card = testFinalSize 15 ∧
    ({0, 1} : Finset ℕ).card = validSize 15 :=
  c4_split_sizes 15 (Finset.range 15) {0, 1, 2} {0, 1}
    (by decide) (by decide) (by decide) (by decide) (by decide)

/-! ## 13_mol_transformer.py : smi_tokenizer (lines 34-43) -/

/-- The single-character alternatives of the SMILES token pattern
(13_mol_transformer.py line 39), in alternation order:
`N O S P F I b c n o s p ( ) . = # - + \ / : ~ @ ? > * $`. -/
def isSingleTok (c : Char) : Bool :=
  decide (c = 'N') || decide (c = 'O') || decide (c = 'S') ||
  decide (c = 'P') || decide (c = 'F') || decide (c = 'I') ||
  decide (c = 'b') || decide (c = 'c') || decide (c = 'n') ||
  decide (c = 'o') || decide (c = 's') || decide (c = 'p') ||
  decide (c = '(') || decide (c = ')') || decide (c = '.') ||
  decide (c = '=') || decide (c = '#') || decide (c = '-') ||
  decide (c = '+') || decide (c = '\\') || decide (c = '/') ||
  decide (c = ':') || decide (c = '~') || decide (c = '@') ||
  decide (c = '?') || decide (c = '>') || decide (c = '*') ||
  decide (c = '$')

/-- One match attempt of the compiled token pattern at the start of `s`,
following the regex alternation order of line 39: the bracket alternative
`\[[^\]]+]` first, then `Br?`, `Cl?`, the single characters, `%[0-9]{2}`
and `[0-9]`.  Returns the matched token and the remaining characters;
`none` when no alternative matches at this position. -/
def matchAt (s : List Char) : Option (List Char × List Char) :=
  match s with
  | [] => none
  | c :: rest =>
    if c = '[' then
      let pre := rest.takeWhile (fun d => decide (d ≠ ']'))
      match rest.dropWhile (fun d => decide (d ≠ ']')) with
      | c2 :: rest3 =>
          if decide (c2 = ']') && !pre.isEmpty then
            some ('[' :: pre ++ [']'], rest3)
          else none
      | [] => none
    else if c = 'B' then
      match rest with
      | c2 :: rest2 =>
          if c2 = 'r' then some (['B', 'r'], rest2) else some (['B'], rest)
      | [] => some (['B'], rest)
    else if c = 'C' then
      match rest with
      | c2 :: rest2 =>
          if c2 = 'l' then some (['C', 'l'], rest2) else some (['C'], rest)
      | [] => some (['C'], rest)
    else if isSingleTok c then some ([c], rest)
    else if c = '%' then
      match rest with
      | d1 :: d2 :: rest2 =>
          if d1.isDigit && d2.isDigit then some (['%', d1, d2], rest2)
          else none
      | _ => none
    else if c.isDigit then some ([c], rest)
    else none

/-- `regex.findall(smi)` (line 41): scan left to right, at each position
emitting the pattern match when one exists and otherwise skipping one
character.  `fuel` bounds the recursion; `fuel = s.length` suffices. -/
def findTokensAux : ℕ → List Char → List (List Char)
  | 0, _ => []
  | _ + 1, [] => []
  | fuel + 1, c :: rest =>
    match matchAt (c :: rest) with
    | some (tok, rest2) => tok :: findTokensAux fuel rest2
    | none => findTokensAux fuel rest

/-- All pattern matches found in `s`, in order. -/
def findTokens (s : List Char) : List (List Char) :=
  findTokensAux s.length s

/-- `smi_tokenizer` (13_mol_transformer.py lines 34-43): the tokens joined
by single spaces when the assertion `smi == ''.join(tokens)` holds, `none`
(the `AssertionError`) otherwise. -/
def smi_tokenizer (s : List Char) : Option (List Char) :=
  let tokens := findTokens s
  if tokens.flatten = s then some (List.intercalate [' '] tokens) else none

/-- The bracket-atom alternative `\[[^\]]+]` as a whole-string match. -/
def isBracketTok (t : List Char) : Bool :=
  match t with
  | c :: rest =>
      decide (c = '[') && decide (2 ≤ rest.length) &&
        decide (rest.getLast? = some ']') &&
        rest.dropLast.all (fun d => decide (d ≠ ']'))
  | [] => false

/-- The `%[0-9]{2}` alternative as a whole-string match. -/
def isPctTok (t : List Char) : Bool :=
  match t with
  | [c, d1, d2] => decide (c = '%') && d1.isDigit && d2.isDigit
  | _ => false

/-- Whole strings matched by the token pattern of line 39: one token. -/
def isToken (t : List Char) : Bool :=
  isBracketTok t ||
  decide (t = ['B']) || decide (t = ['B', 'r']) ||
  decide (t = ['C']) || decide (t = ['C', 'l']) ||
  (match t with
   | [c] => isSingleTok c || c.isDigit
   | _ => false) ||
  isPctTok t

/-- Strings that are concatenations of whole-pattern tokens: the inputs the
claim calls "composed entirely of substrings matched by the SMILES token
pattern". -/
inductive TokenConcat : List Char → Prop
  | nil : TokenConcat []
  | cons (t r : List Char) : isToken t = true → TokenConcat r →
      TokenConcat (t ++ r)

/-- Characters a token can start with. -/
def isTokenStart (c : Char) : Bool :=
  decide (c = '[') || decide (c = 'B') || decide (c = 'C') ||
  isSingleTok c || c.isDigit || decide (c = '%')

/-- The empty string matches no alternative. -/
theorem isToken_ne_nil (t : List Char) (h : isToken t = true) : t ≠ [] := by
  intro he
  subst he
  simp [isToken, isBracketTok, isPctTok] at h

/-- Tokens start with a token-start character. -/
theorem isToken_head (c : Char) (t : List Char)
    (h : isToken (c :: t) = true) : isTokenStart c = true := by
  unfold isToken isBracketTok isPctTok at h
  unfold isTokenStart
  cases t with
  | nil =>
    simp at h ⊢
    tauto
  | cons d t2 =>
    cases t2 with
    | nil =>
      simp at h ⊢
      tauto
    | cons e t3 =>
      cases t3 with
      | nil =>
        simp at h ⊢
        tauto
      | cons f t4 =>
        simp at h ⊢
        tauto

/-- A nonempty token concatenation starts with a token-start character. -/
theorem tokenConcat_head (r : List Char) (hr : TokenConcat r) :
    r = [] ∨ ∃ c r2, r = c :: r2 ∧ isTokenStart c = true := by
  cases hr with
  | nil => exact Or.inl rfl
  | cons t r2 ht hr2 =>
    cases t with
    | nil => exact absurd rfl (isToken_ne_nil [] ht)
    | cons c t2 =>
      exact Or.inr ⟨c, t2 ++ r2, by simp, isToken_head c t2 ht⟩

/-- The single-character alternatives are not digits. -/
theorem singleTok_not_digit (c : Char) (h : isSingleTok c = true) :
    c.isDigit = false := by
  unfold isSingleTok at h
  simp at h
  casesm* _ ∨ _ <;> subst_vars <;> decide

/-- The single-character alternatives exclude the other branch heads. -/
theorem singleTok_branches (c : Char) (h : isSingleTok c = true) :
    c ≠ '[' ∧ c ≠ 'B' ∧ c ≠ 'C' := by
  unfold isSingleTok at h
  simp at h
  casesm* _ ∨ _ <;> subst_vars <;> decide

/-- Digits exclude the other branch heads. -/
theorem digit_branches (c : Char) (h : c.isDigit = true) :
    c ≠ '[' ∧ c ≠ 'B' ∧ c ≠ 'C' ∧ c ≠ '%' ∧ isSingleTok c = false := by
  refine ⟨?_, ?_, ?_, ?_, ?_⟩
  · intro he; subst he; exact absurd h (by decide)
  · intro he; subst he; exact absurd h (by decide)
  · intro he; subst he; exact absurd h (by decide)
  · intro he; subst he; exact absurd h (by decide)
  · cases hs : isSingleTok c with
    | false => rfl
    | true => rw [singleTok_not_digit c hs] at h; exact absurd h (by decide)

/-- `takeWhile`/`dropWhile` around the first failing element. -/
theorem takeWhile_middle (p : Char → Bool) (mid l : List Char) (b : Char)
    (hmid : ∀ x ∈ mid, p x = true) (hb : p b = false) :
    (mid ++ b :: l).takeWhile p = mid ∧ (mid ++ b :: l).dropWhile p = b :: l := by
  induction mid with
  | nil => simp [List.takeWhile_cons, List.dropWhile_cons, hb]
  | cons a mid ih =>
    have ha : p a = true := hmid a (List.mem_cons_self a mid)
    have ih2 := ih (fun x hx => hmid x (List.mem_cons_of_mem a hx))
    simp [List.takeWhile_cons, List.dropWhile_cons, ha, ih2.1, ih2.2]

/-- At a token boundary whose right context is empty or begins with a
token-start character, the pattern match consumes exactly that token:
regex greediness (`Br?`, `Cl?`, the bracket atom) never crosses a token
boundary because no token starts with `r`, `l`, or a bare `]`. -/
theorem matchAt_token (t r : List Char) (ht : isToken t = true)
    (hr : r = [] ∨ ∃ c r2, r = c :: r2 ∧ isTokenStart c = true) :
    matchAt (t ++ r) = some (t, r) := by
  unfold isToken at ht
  simp only [Bool.or_eq_true, decide_eq_true_eq] at ht
  rcases ht with (((((hbr | hB) | hBr) | hC) | hCl) | hsn) | hpc
  · -- bracket token
    unfold isBracketTok at hbr
    cases t with
    | nil => simp at hbr
    | cons c rest =>
      simp only [Bool.and_eq_true, decide_eq_true_eq] at hbr
      obtain ⟨⟨⟨hc, hlen⟩, hlast⟩, hall⟩ := hbr
      subst hc
      obtain ⟨mid, rfl⟩ := List.getLast?_eq_some_iff.mp hlast
      rw [List.dropLast_concat] at hall
      obtain ⟨m0, mid', rfl⟩ : ∃ m0 mid', mid = m0 :: mid' := by
        cases mid with
        | nil => simp at hlen
        | cons m0 mid' => exact ⟨m0, mid', rfl⟩
      have hmidall : ∀ x ∈ m0 :: mid', (fun d => decide (d ≠ ']')) x = true :=
        fun x hx => List.all_eq_true.mp hall x hx
      have htw := takeWhile_middle (fun d => decide (d ≠ ']'))
        (m0 :: mid') r ']' hmidall (by decide)
      have harr : ('[' :: ((m0 :: mid') ++ [']'])) ++ r =
          '[' :: ((m0 :: mid') ++ ']' :: r) := by simp
      rw [harr]
      unfold matchAt
      simp only [if_pos rfl, htw.1, htw.2]
      simp
  · -- t = ['B']
    subst hB
    rcases hr with rfl | ⟨c, r2, rfl, hstart⟩
    · decide
    · have hcr : c ≠ 'r' := by
        intro he; subst he; exact absurd hstart (by decide)
      show matchAt ('B' :: c :: r2) = some (['B'], c :: r2)
      unfold matchAt
      simp [hcr]
  · -- t = ['B', 'r']
    subst hBr
    show matchAt ('B' :: 'r' :: r) = some (['B', 'r'], r)
    unfold matchAt
    simp
  · -- t = ['C']
    subst hC
    rcases hr with rfl | ⟨c, r2, rfl, hstart⟩
    · decide
    · have hcl : c ≠ 'l' := by
        intro he; subst he; exact absurd hstart (by decide)
      show matchAt ('C' :: c :: r2) = some (['C'], c :: r2)
      unfold matchAt
      simp [hcl]
  · -- t = ['C', 'l']
    subst hCl
    show matchAt ('C' :: 'l' :: r) = some (['C', 'l'], r)
    unfold matchAt
    simp
  · -- single-character token
    cases t with
    | nil => simp at hsn
    | cons c t2 =>
      cases t2 with
      | cons d t3 => simp at hsn
      | nil =>
        simp only [Bool.or_eq_true] at hsn
        show matchAt (c :: r) = some ([c], r)
        rcases hsn with hs | hd
        · obtain ⟨h1, h2, h3⟩ := singleTok_branches c hs
          unfold matchAt
          simp [h1, h2, h3, hs]
        · obtain ⟨h1, h2, h3, h4, h5⟩ := digit_branches c hd
          unfold matchAt
          simp [h1, h2, h3, h4, h5, hd]
  · -- percent token
    unfold isPctTok at hpc
    cases t with
    | nil => simp at hpc
    | cons e t2 =>
      cases t2 with
      | nil => simp at hpc
      | cons d1 t3 =>
        cases t3 with
        | nil => simp at hpc
        | cons d2 t4 =>
          cases t4 with
          | cons f t5 => simp at hpc
          | nil =>
            simp only [Bool.and_eq_true, decide_eq_true_eq] at hpc
            obtain ⟨⟨he, hd1⟩, hd2⟩ := hpc
            subst he
            show matchAt ('%' :: d1 :: d2 :: r) = some (['%', d1, d2], r)
            unfold matchAt
            simp [isSingleTok, hd1, hd2]

/-- Whatever the pattern matches is a token, consumed from the front. -/
theorem matchAt_sound (s tok rest : List Char)
    (h : matchAt s = some (tok, rest)) :
    s = tok ++ rest ∧ tok ≠ [] ∧ isToken tok = true := by
  cases s with
  | nil => simp [matchAt] at h
  | cons c rest0 =>
    simp only [matchAt] at h
    by_cases h1 : c = '['
    · subst h1
      rw [if_pos rfl] at h
      cases hdw : rest0.dropWhile (fun d => decide (d ≠ ']')) with
      | nil =>
        simp only [hdw] at h
        exact Option.noConfusion h
      | cons c2 rest3 =>
        simp only [hdw] at h
        cases hcond : (decide (c2 = ']') &&
            !(rest0.takeWhile (fun d => decide (d ≠ ']'))).isEmpty) with
        | false =>
          simp only [hcond, if_false, Bool.false_eq_true] at h
          exact Option.noConfusion h
        | true =>
          simp only [hcond, if_true] at h
          simp only [Bool.and_eq_true, decide_eq_true_eq,
            Bool.not_eq_true', List.isEmpty_eq_false] at hcond
          obtain ⟨hc2, hpre⟩ := hcond
          subst hc2
          obtain ⟨rfl, rfl⟩ : '[' :: rest0.takeWhile
              (fun d => decide (d ≠ ']')) ++ [']'] = tok ∧ rest3 = rest := by
            have := h
            simp only [Option.some.injEq, Prod.mk.injEq] at this
            exact this
          refine ⟨?_, by simp, ?_⟩
          · have hsplit := List.takeWhile_append_dropWhile
              (p := fun d => decide (d ≠ ']')) (l := rest0)
            rw [hdw] at hsplit
            conv_lhs => rw [← hsplit]
            simp
          · unfold isToken isBracketTok
            have hlen : 2 ≤ (rest0.takeWhile
                (fun d => decide (d ≠ ']')) ++ [']']).length := by
              have : 0 < (rest0.takeWhile (fun d => decide (d ≠ ']'))).length :=
                List.length_pos.mpr hpre
              simp only [List.length_append, List.length_cons,
                List.length_nil]
              omega
            have hall : (rest0.takeWhile (fun d => decide (d ≠ ']'))
                ++ [']']).dropLast.all (fun d => decide (d ≠ ']')) = true := by
              rw [List.dropLast_concat]
              refine List.all_eq_true.mpr ?_
              intro x hx
              exact List.mem_takeWhile_imp (p := fun d => decide (d ≠ ']')) hx
            simp [hlen, hall, List.getLast?_concat]
            refine Or.inl ?_
            simpa using List.length_pos.mpr hpre
    · rw [if_neg h1] at h
      by_cases h2 : c = 'B'
      · subst h2
        rw [if_pos rfl] at h
        cases rest0 with
        | nil =>
          obtain ⟨rfl, rfl⟩ : (['B'] : List Char) = tok ∧ ([] : List Char) = rest := by
            simpa using h
          exact ⟨rfl, by simp, by decide⟩
        | cons c2 rest2 =>
          by_cases hc2 : c2 = 'r'
          · subst hc2
            simp only [if_pos rfl] at h
            obtain ⟨rfl, rfl⟩ : (['B', 'r'] : List Char) = tok ∧ rest2 = rest := by
              simpa using h
            exact ⟨rfl, by simp, by decide⟩
          · simp only [if_neg hc2] at h
            obtain ⟨rfl, rfl⟩ : (['B'] : List Char) = tok ∧ c2 :: rest2 = rest := by
              simpa using h
            exact ⟨rfl, by simp, by decide⟩
      · rw [if_neg h2] at h
        by_cases h3 : c = 'C'
        · subst h3
          rw [if_pos rfl] at h
          cases rest0 with
          | nil =>
            obtain ⟨rfl, rfl⟩ : (['C'] : List Char) = tok ∧ ([] : List Char) = rest := by
              simpa using h
            exact ⟨rfl, by simp, by decide⟩
          | cons c2 rest2 =>
            by_cases hc2 : c2 = 'l'
            · subst hc2
              simp only [if_pos rfl] at h
              obtain ⟨rfl, rfl⟩ : (['C', 'l'] : List Char) = tok ∧ rest2 = rest := by
                simpa using h
              exact ⟨rfl, by simp, by decide⟩
            · simp only [if_neg hc2] at h
              obtain ⟨rfl, rfl⟩ : (['C'] : List Char) = tok ∧ c2 :: rest2 = rest := by
                simpa using h
              exact ⟨rfl, by simp, by decide⟩
        · rw [if_neg h3] at h
          by_cases h4 : isSingleTok c
          · rw [if_pos h4] at h
            obtain ⟨rfl, rfl⟩ : ([c] : List Char) = tok ∧ rest0 = rest := by
              simpa using h
            exact ⟨rfl, by simp, by simp [isToken, h4]⟩
          · rw [if_neg h4] at h
            by_cases h5 : c = '%'
            · subst h5
              rw [if_pos rfl] at h
              cases rest0 with
              | nil => simp at h
              | cons d1 rest1 =>
                cases rest1 with
                | nil => simp at h
                | cons d2 rest2 =>
                  cases hdig : (d1.isDigit && d2.isDigit) with
                  | false =>
                    simp only [hdig, if_false, Bool.false_eq_true] at h
                    exact Option.noConfusion h
                  | true =>
                    simp only [hdig, if_true] at h
                    obtain ⟨rfl, rfl⟩ : (['%', d1, d2] : List Char) = tok ∧
                        rest2 = rest := by simpa using h
                    refine ⟨rfl, by simp, ?_⟩
                    simp only [Bool.and_eq_true] at hdig
                    simp [isToken, isPctTok, hdig.1, hdig.2]
            · rw [if_neg h5] at h
              by_cases h6 : c.isDigit
              · rw [if_pos h6] at h
                obtain ⟨rfl, rfl⟩ : ([c] : List Char) = tok ∧ rest0 = rest := by
                  simpa using h
                exact ⟨rfl, by simp, by simp [isToken, h6]⟩
              · rw [if_neg h6] at h
                simp at h

/-- Scanner unfolding on a successful match. -/
theorem findTokensAux_cons_some (n : ℕ) (c : Char)
    (rest tok rest2 : List Char) (h : matchAt (c :: rest) = some (tok, rest2)) :
    findTokensAux (n + 1) (c :: rest) = tok :: findTokensAux n rest2 := by
  simp [findTokensAux, h]

/-- Scanner unfolding on a failed match: skip one character. -/
theorem findTokensAux_cons_none (n : ℕ) (c : Char) (rest : List Char)
    (h : matchAt (c :: rest) = none) :
    findTokensAux (n + 1) (c :: rest) = findTokensAux n rest := by
  simp [findTokensAux, h]

/-- With enough fuel, scanning a token concatenation reconstructs it. -/
theorem findTokensAux_flatten (fuel : ℕ) :
    ∀ s, TokenConcat s → s.length ≤ fuel →
      (findTokensAux fuel s).flatten = s := by
  induction fuel with
  | zero =>
    intro s _ hl
    have hnil : s = [] := List.length_eq_zero.mp (Nat.le_zero.mp hl)
    subst hnil
    rfl
  | succ n ih =>
    intro s hs hl
    cases hs with
    | nil => simp [findTokensAux]
    | cons t r ht hr =>
      have hm : matchAt (t ++ r) = some (t, r) :=
        matchAt_token t r ht (tokenConcat_head r hr)
      obtain ⟨c, t2, rfl⟩ : ∃ c t2, t = c :: t2 := by
        cases t with
        | nil => exact absurd rfl (isToken_ne_nil [] ht)
        | cons c t2 => exact ⟨c, t2, rfl⟩
      rw [List.cons_append] at hm ⊢
      rw [findTokensAux_cons_some n c (t2 ++ r) (c :: t2) r hm]
      have hlr : r.length ≤ n := by
        simp [List.length_append] at hl
        omega
      simp [ih r hr hlr]

/-- Every emitted token is a whole-pattern token. -/
theorem findTokensAux_tokens (fuel : ℕ) :
    ∀ s tok, tok ∈ findTokensAux fuel s → isToken tok = true := by
  induction fuel with
  | zero => intro s tok h; simp [findTokensAux] at h
  | succ n ih =>
    intro s tok h
    cases s with
    | nil => simp [findTokensAux] at h
    | cons c rest =>
      cases hm : matchAt (c :: rest) with
      | none =>
        rw [findTokensAux_cons_none n c rest hm] at h
        exact ih rest tok h
      | some pr =>
        obtain ⟨t0, rest2⟩ := pr
        rw [findTokensAux_cons_some n c rest t0 rest2 hm] at h
        rcases List.mem_cons.mp h with rfl | h2
        · exact (matchAt_sound _ _ _ hm).2.2
        · exact ih rest2 tok h2

/-- Joining whole-pattern tokens yields a token concatenation. -/
theorem tokenConcat_flatten (ts : List (List Char))
    (h : ∀ t ∈ ts, isToken t = true) : TokenConcat ts.flatten := by
  induction ts with
  | nil => exact TokenConcat.nil
  | cons t ts ih =>
    exact TokenConcat.cons t ts.flatten (h t (List.mem_cons_self t ts))
      (ih (fun t2 ht2 => h t2 (List.mem_cons_of_mem t ht2)))

/-- C8: on an input composed entirely of substrings matched by the SMILES
token pattern, `smi_tokenizer` returns the found tokens joined by single
spaces, and their concatenation reproduces the input (so the internal
assertion holds); on any other input — in particular one containing
characters the found matches do not cover — the assertion fails and
`smi_tokenizer` raises (`none`). -/
theorem c8_smi_tokenizer (s : List Char) :
    (TokenConcat s →
        smi_tokenizer s = some (List.intercalate [' '] (findTokens s)) ∧
        (findTokens s).flatten = s) ∧
    (¬ TokenConcat s → smi_tokenizer s = none) := by
  constructor
  · intro hs
    have hfl : (findTokens s).flatten = s :=
      findTokensAux_flatten s.length s hs le_rfl
    exact ⟨by simp [smi_tokenizer, hfl], hfl⟩
  · intro hns
    unfold smi_tokenizer
    by_cases hfl : (findTokens s).flatten = s
    · exact absurd (hfl ▸ tokenConcat_flatten _
        (fun t ht => findTokensAux_tokens s.length s t ht)) hns
    · simp [hfl]

/-- Witness for C8 at the concrete SMILES string `CC(=O)O`. -/
theorem c8_smi_tokenizer_witness :
    smi_tokenizer ['C', 'C', '(', '=', 'O', ')', 'O'] =
      some ['C', ' ', 'C', ' ', '(', ' ', '=', ' ', 'O', ' ', ')', ' ', 'O'] ∧
    (findTokens ['C', 'C', '(', '=', 'O', ')', 'O']).flatten =
      ['C', 'C', '(', '=', 'O', ')', 'O'] := by
  have hw : TokenConcat ['C', 'C', '(', '=', 'O', ')', 'O'] :=
    TokenConcat.cons ['C'] ['C', '(', '=', 'O', ')', 'O'] (by decide)
      (TokenConcat.cons ['C'] ['(', '=', 'O', ')', 'O'] (by decide)
        (TokenConcat.cons ['('] ['=', 'O', ')', 'O'] (by decide)
          (TokenConcat.cons ['='] ['O', ')', 'O'] (by decide)
            (TokenConcat.cons ['O'] [')', 'O'] (by decide)
              (TokenConcat.cons [')'] ['O'] (by decide)
                (TokenConcat.cons ['O'] [] (by decide) TokenConcat.nil))))))
  have h := (c8_smi_tokenizer ['C', 'C', '(', '=', 'O', ')', 'O']).1 hw
  exact ⟨h.1.trans (by decide), h.2⟩

/-! ## 13_mol_transformer.py : one_hot_encoder (lines 100-119) -/

/-- The write `out[batch, i, token] = 1` performed in the loop body of
`one_hot_encoder`, where `token = v[0][i]` because the inner loop iterates
`enumerate(v[0, :])` (line 116). -/
def oneHotWrite (B L V : ℕ) (v : Fin (B + 1) → Fin L → Fin V)
    (out : Fin (B + 1) → Fin L → Fin V → ℝ) (b : Fin (B + 1)) (i : Fin L) :
    Fin (B + 1) → Fin L → Fin V → ℝ :=
  fun b2 i2 t2 => if b2 = b ∧ i2 = i ∧ t2 = v 0 i then 1 else out b2 i2 t2

/-- `one_hot_encoder` (13_mol_transformer.py lines 100-119): start from
`torch.zeros((batch, seq, vocab))` and run
`for batch in range(v.size(0)): for i, token in enumerate(v[0, :]):
out[batch, i, token] = 1`.  Tokens are typed `Fin V`, matching the
assumption that `vocab_size` exceeds all token values. -/
def one_hot_encoder (B L V : ℕ) (v : Fin (B + 1) → Fin L → Fin V) :
    Fin (B + 1) → Fin L → Fin V → ℝ :=
  ((List.finRange (B + 1)).flatMap
      (fun b => (List.finRange L).map (fun i => (b, i)))).foldl
    (fun out p => oneHotWrite B L V v out p.1 p.2) (fun _ _ _ => 0)

/-- Effect of folding the one-hot writes over any list of loop positions. -/
theorem oneHot_foldl (B L V : ℕ) (v : Fin (B + 1) → Fin L → Fin V)
    (ps : List (Fin (B + 1) × Fin L)) :
    ∀ out b i t,
      (ps.foldl (fun out p => oneHotWrite B L V v out p.1 p.2) out) b i t =
        if (b, i) ∈ ps ∧ t = v 0 i then 1 else out b i t := by
  induction ps with
  | nil => intro out b i t; simp
  | cons p ps ih =>
    intro out b i t
    rw [List.foldl_cons, ih]
    by_cases h1 : (b, i) ∈ ps ∧ t = v 0 i
    · rw [if_pos h1, if_pos ⟨List.mem_cons_of_mem p h1.1, h1.2⟩]
    · rw [if_neg h1]
      unfold oneHotWrite
      by_cases h2 : b = p.1 ∧ i = p.2 ∧ t = v 0 p.2
      · obtain ⟨hb, hi, htk⟩ := h2
        have hpv : (b, i) = p := by rw [hb, hi]
        have htv : t = v 0 i := by rw [hi]; exact htk
        rw [if_pos ⟨hb, hi, htk⟩,
          if_pos ⟨List.mem_cons.mpr (Or.inl hpv), htv⟩]
      · rw [if_neg h2]
        have hnc : ¬((b, i) ∈ p :: ps ∧ t = v 0 i) := by
          rintro ⟨hmem, htv⟩
          rcases List.mem_cons.mp hmem with heq | hmem2
          · have hb : b = p.1 := congrArg Prod.fst heq
            have hi : i = p.2 := congrArg Prod.snd heq
            exact h2 ⟨hb, hi, hi ▸ htv⟩
          · exact h1 ⟨hmem2, htv⟩
        rw [if_neg hnc]

/-- C9: the output of `one_hot_encoder` is identical across the batch
dimension: every batch row is the one-hot encoding of the tokens of
`v[0, :]` (the first batch element), not of `v[b]`. -/
theorem c9_one_hot_encoder (B L V : ℕ) (v : Fin (B + 1) → Fin L → Fin V)
    (b : Fin (B + 1)) (i : Fin L) (t : Fin V) :
    one_hot_encoder B L V v b i t = (if t = v 0 i then 1 else 0) ∧
    one_hot_encoder B L V v b i t = one_hot_encoder B L V v 0 i t := by
  have hclosed : ∀ b2 : Fin (B + 1),
      one_hot_encoder B L V v b2 i t = (if t = v 0 i then 1 else 0) := by
    intro b2
    unfold one_hot_encoder
    rw [oneHot_foldl]
    have hmem : (b2, i) ∈ (List.finRange (B + 1)).flatMap
        (fun b3 => (List.finRange L).map (fun i2 => (b3, i2))) := by
      simp [List.mem_flatMap, List.mem_map, List.mem_finRange]
    by_cases ht : t = v 0 i
    · rw [if_pos ⟨hmem, ht⟩, if_pos ht]
    · rw [if_neg (fun hc => ht hc.2), if_neg ht]
  rw [hclosed b, hclosed 0]
  exact ⟨rfl, rfl⟩

/-! ## 13_mol_transformer.py : training loop (lines 667-733) -/

/-- The abstract ingredients of the training loop.  `trainStep` is one
epoch of optimisation over the train loader (lines 679-692, third-party
autograd), `testLoss` the per-epoch test loss of the trained model
(lines 696-710), `m0`/`es0` the initial model and early-stopping state.

`esStep` is modelled from the spec: `EarlyStopping`/`invoke` live in
`functions/pytorchtools`, outside the two source files; the spec says only
that the loop uses early stopping driven by the per-epoch test loss, so the
criterion is an arbitrary stateful function consuming `test_loss[-1]` and
answering whether to stop (line 720). -/
structure TrainCfg (M ES : Type) where
  trainStep : ℕ → M → M
  testLoss : ℕ → M → ℝ
  esStep : ES → ℝ → ES × Bool
  m0 : M
  es0 : ES

/-- The model after `e` completed epochs of training. -/
def modelAt {M ES : Type} (cfg : TrainCfg M ES) : ℕ → M
  | 0 => cfg.m0
  | e + 1 => cfg.trainStep e (modelAt cfg e)

/-- The early-stopping state after `e` completed epochs. -/
def esStateAt {M ES : Type} (cfg : TrainCfg M ES) : ℕ → ES
  | 0 => cfg.es0
  | e + 1 =>
    (cfg.esStep (esStateAt cfg e) (cfg.testLoss e (modelAt cfg (e + 1)))).1

/-- Whether the early-stopping criterion fires at the end of epoch `e`. -/
def trigAt {M ES : Type} (cfg : TrainCfg M ES) (e : ℕ) : Bool :=
  (cfg.esStep (esStateAt cfg e) (cfg.testLoss e (modelAt cfg (e + 1)))).2

/-- Outcome of the training loop: number of completed epochs, whether the
early-stopping branch was taken, the parameters held by `model` after the
loop (`none` models the `torch.load` of a checkpoint that was never
written), and the checkpoint file contents. -/
structure LoopResult (M : Type) where
  epochsRun : ℕ
  stoppedEarly : Bool
  finalModel : Option M
  checkpoint : Option M

/-- The epoch loop (lines 677-733): each iteration trains one epoch,
computes the test loss, asks the early-stopping criterion, and either
restores the last saved checkpoint and breaks (lines 720-725) or saves the
current model as the new checkpoint (lines 727-733) and continues. -/
def runLoop {M ES : Type} (cfg : TrainCfg M ES) :
    ℕ → ℕ → M → ES → Option M → LoopResult M
  | 0, e, m, _, ckpt => ⟨e, false, some m, ckpt⟩
  | fuel + 1, e, m, es, ckpt =>
    let m2 := cfg.trainStep e m
    let p := cfg.esStep es (cfg.testLoss e m2)
    if p.2 then ⟨e + 1, true, ckpt, ckpt⟩
    else runLoop cfg fuel (e + 1) m2 p.1 (some m2)

/-- `num_epochs = 1000` (line 674). -/
def NUM_EPOCHS : ℕ := 1000

/-- `for epoch in range(num_epochs)` with early stopping (line 677). -/
def trainLoop {M ES : Type} (cfg : TrainCfg M ES) : LoopResult M :=
  runLoop cfg NUM_EPOCHS 0 cfg.m0 cfg.es0 none

/-- One-step unfolding of the epoch loop. -/
theorem runLoop_succ {M ES : Type} (cfg : TrainCfg M ES) (n e : ℕ) (m : M)
    (es : ES) (ckpt : Option M) :
    runLoop cfg (n + 1) e m es ckpt =
      if (cfg.esStep es (cfg.testLoss e (cfg.trainStep e m))).2 then
        ⟨e + 1, true, ckpt, ckpt⟩
      else runLoop cfg n (e + 1) (cfg.trainStep e m)
        (cfg.esStep es (cfg.testLoss e (cfg.trainStep e m))).1
        (some (cfg.trainStep e m)) := rfl

/-- Invariant of the epoch loop, by induction on the remaining fuel. -/
theorem runLoop_spec {M ES : Type} (cfg : TrainCfg M ES) :
    ∀ fuel e, (∀ e2, e2 < e → trigAt cfg e2 = false) →
      (runLoop cfg fuel e (modelAt cfg e) (esStateAt cfg e)
          (if e = 0 then none else some (modelAt cfg e))).epochsRun ≤
            e + fuel ∧
      ((∀ e2, e2 < e + fuel → trigAt cfg e2 = false) →
        (runLoop cfg fuel e (modelAt cfg e) (esStateAt cfg e)
            (if e = 0 then none else some (modelAt cfg e))) =
          ⟨e + fuel, false, some (modelAt cfg (e + fuel)),
            if e + fuel = 0 then none else some (modelAt cfg (e + fuel))⟩) ∧
      (∀ e3, e ≤ e3 → e3 < e + fuel → trigAt cfg e3 = true →
        (∀ e2, e2 < e3 → trigAt cfg e2 = false) →
        (runLoop cfg fuel e (modelAt cfg e) (esStateAt cfg e)
            (if e = 0 then none else some (modelAt cfg e))) =
          ⟨e3 + 1, true, if e3 = 0 then none else some (modelAt cfg e3),
            if e3 = 0 then none else some (modelAt cfg e3)⟩) := by
  intro fuel
  induction fuel with
  | zero =>
    intro e hpre
    refine ⟨by simp [runLoop], ?_, ?_⟩
    · intro _
      simp [runLoop]
    · intro e3 h1 h2 _ _
      omega
  | succ n ih =>
    intro e hpre
    cases htrig : trigAt cfg e with
    | true =>
      have hcond : (cfg.esStep (esStateAt cfg e)
          (cfg.testLoss e (cfg.trainStep e (modelAt cfg e)))).2 = true := htrig
      have hred : runLoop cfg (n + 1) e (modelAt cfg e) (esStateAt cfg e)
          (if e = 0 then none else some (modelAt cfg e)) =
          ⟨e + 1, true, if e = 0 then none else some (modelAt cfg e),
            if e = 0 then none else some (modelAt cfg e)⟩ := by
        rw [runLoop_succ, hcond]
        simp
      refine ⟨by rw [hred]; show e + 1 ≤ e + (n + 1); omega, ?_, ?_⟩
      · intro hall
        exact absurd htrig (by simp [hall e (by omega)])
      · intro e3 h1 h2 h3 h4
        have he3 : e3 = e := by
          by_contra hne
          have : e < e3 := by omega
          exact absurd htrig (by simp [h4 e this])
        subst he3
        exact hred
    | false =>
      have hcond : (cfg.esStep (esStateAt cfg e)
          (cfg.testLoss e (cfg.trainStep e (modelAt cfg e)))).2 = false := htrig
      have hred : runLoop cfg (n + 1) e (modelAt cfg e) (esStateAt cfg e)
          (if e = 0 then none else some (modelAt cfg e)) =
          runLoop cfg n (e + 1) (modelAt cfg (e + 1)) (esStateAt cfg (e + 1))
            (if e + 1 = 0 then none else some (modelAt cfg (e + 1))) := by
        rw [runLoop_succ, hcond]
        simp only [Bool.false_eq_true, if_false]
        rfl
      have hpre2 : ∀ e2, e2 < e + 1 → trigAt cfg e2 = false := by
        intro e2 he2
        by_cases he2e : e2 = e
        · subst he2e; exact htrig
        · exact hpre e2 (by omega)
      obtain ⟨ih1, ih2, ih3⟩ := ih (e + 1) hpre2
      refine ⟨?_, ?_, ?_⟩
      · rw [hred]
        calc _ ≤ (e + 1) + n := ih1
        _ = e + (n + 1) := by omega
      · intro hall
        rw [hred, ih2 (fun e2 he2 => hall e2 (by omega))]
        have : (e + 1) + n = e + (n + 1) := by omega
        rw [this]
      · intro e3 h1 h2 h3 h4
        have he3 : e + 1 ≤ e3 := by
          by_contra hlt
          have : e3 = e := by omega
          subst this
          exact absurd h3 (by simp [htrig])
        rw [hred]
        exact ih3 e3 he3 (by omega) h3 h4

/-- C5: the training loop terminates after at most `NUM_EPOCHS = 1000`
epochs; it runs all 1000 epochs exactly when the early-stopping criterion
never fires, and when the criterion first fires at epoch `e` the loop stops
there (having run `e + 1` epochs) with the model parameters restored from
the last saved checkpoint — the model saved at the end of epoch `e - 1`
(no checkpoint was written by the loop when `e = 0`). -/
theorem c5_training_loop {M ES : Type} (cfg : TrainCfg M ES) :
    (trainLoop cfg).epochsRun ≤ NUM_EPOCHS ∧
    ((∀ e, e < NUM_EPOCHS → trigAt cfg e = false) →
      (trainLoop cfg).stoppedEarly = false ∧
      (trainLoop cfg).epochsRun = NUM_EPOCHS) ∧
    (∀ e, e < NUM_EPOCHS → trigAt cfg e = true →
      (∀ e2, e2 < e → trigAt cfg e2 = false) →
      (trainLoop cfg).stoppedEarly = true ∧
      (trainLoop cfg).epochsRun = e + 1 ∧
      (trainLoop cfg).finalModel =
        (if e = 0 then none else some (modelAt cfg e))) := by
  obtain ⟨h1, h2, h3⟩ :=
    runLoop_spec cfg NUM_EPOCHS 0 (fun e2 he2 => absurd he2 (by omega))
  have heq : trainLoop cfg = runLoop cfg NUM_EPOCHS 0 (modelAt cfg 0)
      (esStateAt cfg 0) (if 0 = 0 then none else some (modelAt cfg 0)) := rfl
  refine ⟨?_, ?_, ?_⟩
  · rw [heq]
    calc _ ≤ 0 + NUM_EPOCHS := h1
    _ = NUM_EPOCHS := by omega
  · intro hall
    rw [heq, h2 (fun e2 he2 => hall e2 (by omega))]
    exact ⟨rfl, by show 0 + NUM_EPOCHS = NUM_EPOCHS; omega⟩
  · intro e he htrig hfirst
    rw [heq, h3 e (by omega) (by omega) htrig hfirst]
    exact ⟨rfl, rfl, rfl⟩

/-- Concrete loop configuration for the C5 witness: the criterion counts
its calls and fires on the second one (end of epoch 1). -/
def cfgW : TrainCfg ℕ ℕ :=
  ⟨fun _ m => m + 1, fun _ _ => 0, fun n _ => (n + 1, decide (n = 1)), 0, 0⟩

/-- Witness for C5: the criterion first fires at epoch 1, so the loop runs
2 epochs and restores the checkpoint written after epoch 0. -/
theorem c5_training_loop_witness :
    (trainLoop cfgW).stoppedEarly = true ∧
    (trainLoop cfgW).epochsRun = 2 ∧
    (trainLoop cfgW).finalModel = some (modelAt cfgW 1) ∧
    (trainLoop cfgW).epochsRun ≤ NUM_EPOCHS := by
  have h := c5_training_loop cfgW
  have h3 := h.2.2 1 (by decide) rfl
    (fun e2 he2 => by interval_cases e2; rfl)
  exact ⟨h3.1, h3.2.1, by rw [h3.2.2]; simp, h.1⟩

/-! ## 13_mol_transformer.py : loss bookkeeping and plotting
(lines 678-710 and 754-756) -/

/-- The `batch_loss` accumulator (lines 678, 692, 696, 706): starts at 0
and adds each batch loss in turn. -/
noncomputable def accumLoss (ls : List ℝ) : ℝ := ls.foldl (fun a b => a + b) 0

/-- The per-epoch recorded loss `batch_loss / len(loader)` appended to
`train_loss` (line 694) and to `test_loss` (line 710), with `ls` the list
of per-batch losses of that epoch's loader. -/
noncomputable def epochAvg (ls : List ℝ) : ℝ := accumLoss ls / ls.length

/-- Line 754: `train_loss = [conv x for x in train_loss]`, where the
conversion (detach/cpu/numpy) is the identity on the numeric value. -/
def convertedTrainLoss (train_loss : List ℝ) : List ℝ :=
  train_loss.map (fun x => x)

/-- Line 755: `test_loss = [conv x for x in train_loss]` — the list
comprehension iterates `train_loss`, so the series handed to
`plot_losses` as its test series (plotted as 'Test loss') is built from
the recorded train losses and ignores `test_loss` entirely. -/
def convertedTestLoss (train_loss test_loss : List ℝ) : List ℝ :=
  train_loss.map (fun x => x)

/-- C7: the bookkeeping does record per-epoch averages (`batch_loss`
accumulates the sum of the batch losses, divided by the loader length),
but the series plotted as 'Test loss' in 13_losses.png is the converted
`train_loss` series, not the recorded test-loss series: with recorded
series train = [1] and test = [2], the plotted test series is [1] ≠ [2]. -/
theorem c7_loss_bookkeeping :
    (∀ ls : List ℝ, accumLoss ls = ls.sum ∧
      epochAvg ls = ls.sum / ls.length) ∧
    (∀ train_loss test_loss : List ℝ,
      convertedTestLoss train_loss test_loss = train_loss) ∧
    convertedTestLoss [1] [2] = [1] ∧ ([1] : List ℝ) ≠ [2] := by
  have hsum : ∀ ls : List ℝ, accumLoss ls = ls.sum := by
    intro ls
    rw [accumLoss, List.sum_eq_foldl]
  have hconv : ∀ train_loss test_loss : List ℝ,
      convertedTestLoss train_loss test_loss = train_loss := by
    intro train_loss test_loss
    simp [convertedTestLoss]
  refine ⟨fun ls => ⟨hsum ls, ?_⟩, hconv, hconv [1] [2], ?_⟩
  · rw [epochAvg, hsum ls]
  · intro hc
    have : (1 : ℝ) = 2 := (List.cons.injEq _ _ _ _ ▸ hc :
      (1 : ℝ) = 2 ∧ ([] : List ℝ) = []).1
    norm_num at this

/-! ## 13_mol_transformer.py : the Transformer (lines 100-665)

Tensors are functions on `Fin` index types over `ℝ`; learned parameters and
the elementwise dropout masks (`bernoulli / (1 - p)` in train mode, all ones
in eval mode) are arguments of the embedding.  The embedding dimension is
`H * Hd` (`head_dim = dim // n_heads`, line 218, exact for the instantiated
512 = 8·64). -/

/-- An `nn.Linear(din, dout)`: weight of shape `(dout, din)` and bias. -/
structure LinearP (din dout : ℕ) where
  w : Fin dout → Fin din → ℝ
  b : Fin dout → ℝ

/-- `x @ W.T + b` on the last dimension. -/
noncomputable def linearF {din dout : ℕ} (p : LinearP din dout)
    (x : Fin din → ℝ) : Fin dout → ℝ :=
  fun j => (∑ d, x d * p.w j d) + p.b j

/-- Softmax over the last dimension (`dp.softmax(dim=-1)`, lines 261/336,
and `self.softmax(out, dim=-1)`, line 644). -/
noncomputable def softmaxF {n : ℕ} (z : Fin n → ℝ) : Fin n → ℝ :=
  fun i => Real.exp (z i) / ∑ j, Real.exp (z j)

/-- `nn.LayerNorm(dim, eps=1e-6)` over the last dimension: biased variance,
learnable weight `g` and bias `c`. -/
noncomputable def layerNormF {n : ℕ} (g c : Fin n → ℝ) (x : Fin n → ℝ) :
    Fin n → ℝ :=
  fun d =>
    (x d - (∑ i, x i) / n) /
        Real.sqrt ((∑ i, (x i - (∑ j, x j) / n) ^ 2) / n + 1e-6) * g d
      + c d

/-- The Gauss error function. -/
noncomputable def erf (t : ℝ) : ℝ :=
  2 / Real.sqrt Real.pi * ∫ s in (0 : ℝ)..t, Real.exp (-(s ^ 2))

/-- `nn.GELU()` in its exact (non-approximate) form `x * Φ(x)`. -/
noncomputable def gelu (x : ℝ) : ℝ :=
  x * (1 + erf (x / Real.sqrt 2)) / 2

/-- Head index of a flattened embedding coordinate (`flatten(2)`,
lines 265/340: the last dimension is laid out head-major). -/
def headIdx {H Hd : ℕ} (d : Fin (H * Hd)) : Fin H :=
  ⟨d.val / Hd, by
    have hpos : 0 < Hd := by
      rcases Nat.eq_zero_or_pos Hd with h0 | h
      · subst h0
        exact absurd d.isLt (by simp)
      · exact h
    exact (Nat.div_lt_iff_lt_mul hpos).mpr d.isLt⟩

/-- Within-head index of a flattened embedding coordinate. -/
def dimIdx {H Hd : ℕ} (d : Fin (H * Hd)) : Fin Hd :=
  ⟨d.val % Hd, by
    have hpos : 0 < Hd := by
      rcases Nat.eq_zero_or_pos Hd with h0 | h
      · subst h0
        exact absurd d.isLt (by simp)
      · exact h
    exact Nat.mod_lt _ hpos⟩

/-- Flattened coordinate of a (head, within-head) pair (`reshape`,
lines 322-324). -/
def flatIdx {H Hd : ℕ} (h : Fin H) (f : Fin Hd) : Fin (H * Hd) :=
  ⟨h.val * Hd + f.val, by
    calc h.val * Hd + f.val < h.val * Hd + Hd := by omega
    _ = (h.val + 1) * Hd := by ring
    _ ≤ H * Hd := Nat.mul_le_mul_right Hd h.isLt⟩

/-- Coordinate of the `(t, h, f)` entry in the `3*dim`-wide `qkv` output
(`reshape(batch, tokens, 3, heads, head_dim)`, lines 246-248). -/
def qkvIdx {H Hd : ℕ} (t : Fin 3) (h : Fin H) (f : Fin Hd) :
    Fin (3 * (H * Hd)) :=
  ⟨t.val * (H * Hd) + (flatIdx h f).val, by
    calc t.val * (H * Hd) + (flatIdx h f).val
        < t.val * (H * Hd) + H * Hd := by
          have := (flatIdx h f).isLt
          omega
    _ = (t.val + 1) * (H * Hd) := by ring
    _ ≤ 3 * (H * Hd) := Nat.mul_le_mul_right (H * Hd) t.isLt⟩

/-- `Embedding.forward` (lines 140-155): table lookup, then
`permute(1, 0, 2)` to `(seq, batch, dim)`. -/
noncomputable def embeddingF {B L V D : ℕ} (W : Fin V → Fin D → ℝ)
    (x : Fin B → Fin L → Fin V) : Fin L → Fin B → Fin D → ℝ :=
  fun l b d => W (x b l) d

/-- The positional-encoding table `pe` (lines 175-179): even coordinates
get `sin(pos * div_term)`, odd ones `cos(pos * div_term)` with the div
term of the preceding even coordinate. -/
noncomputable def peVal (D l d : ℕ) : ℝ :=
  if d % 2 = 0 then Real.sin (l * Real.exp (-(d : ℝ) * Real.log 10000 / D))
  else Real.cos (l * Real.exp (-((d - 1 : ℕ) : ℝ) * Real.log 10000 / D))

/-- `PositionalEncoding.forward` (lines 182-194): add the table, then
dropout (p = 0.1), with the dropout mask a parameter. -/
noncomputable def posEncF {L B D : ℕ} (mask : Fin L → Fin B → Fin D → ℝ)
    (x : Fin L → Fin B → Fin D → ℝ) : Fin L → Fin B → Fin D → ℝ :=
  fun l b d => mask l b d * (x l b d + peVal D l d)

/-- `Transformer.generate_mask` (lines 603-605): an upper-triangular matrix
of `-inf` (the bottom of `EReal`), with zeros on and below the diagonal. -/
def generate_mask (sz : ℕ) : Fin sz → Fin sz → EReal :=
  fun i j => if i.val < j.val then ⊥ else 0

/-- Softmax rows are nonnegative. -/
theorem softmaxF_nonneg {n : ℕ} (z : Fin n → ℝ) (i : Fin n) :
    0 ≤ softmaxF z i := by
  unfold softmaxF
  exact div_nonneg (Real.exp_pos _).le
    (Finset.sum_nonneg fun j _ => (Real.exp_pos _).le)

/-- Softmax rows over a nonempty dimension sum to one. -/
theorem softmaxF_sum_one {n : ℕ} (z : Fin (n + 1) → ℝ) :
    ∑ i, softmaxF z i = 1 := by
  unfold softmaxF
  rw [← Finset.sum_div]
  exact div_self (ne_of_gt (Finset.sum_pos
    (fun j _ => Real.exp_pos _) Finset.univ_nonempty))

/-- The `q`/`k`/`v` tensors of `SelfAttention.forward` (lines 244-254):
`qkv = self.qkv(x)` reshaped to `(·, ·, 3, heads, head_dim)` and permuted to
`(3, batch-of-q, heads, seq, head_dim)`.  The source unpacks the input
shape `(seq, batch, dim)` as `batch_size, n_tokens, dim`, and the embedding
follows the index flow exactly: entry `t` selects q (`t = 0`), k (`t = 1`)
or v (`t = 2`). -/
noncomputable def saQKV {L B H Hd : ℕ}
    (qkv : LinearP (H * Hd) (3 * (H * Hd)))
    (x : Fin L → Fin B → Fin (H * Hd) → ℝ) (t : Fin 3) :
    Fin B → Fin H → Fin L → Fin Hd → ℝ :=
  fun b h s f => linearF qkv (x s b) (qkvIdx t h f)

/-- The score tensor of `SelfAttention.forward` (line 256):
`dp = torch.einsum('kabc,qdef->qabe', k, q) * self.scale`.  The einsum
shares no index between its operands, so entry `[q, a, b, e]` is the
product of `k` summed over its batch and head-dim axes (at head `a`,
position `b`) and `q` summed over its head and head-dim axes (at batch
`q`, position `e`), times `head_dim ** -0.5`. -/
noncomputable def saDP {L B H Hd : ℕ}
    (qkv : LinearP (H * Hd) (3 * (H * Hd)))
    (x : Fin L → Fin B → Fin (H * Hd) → ℝ) :
    Fin B → Fin H → Fin L → Fin L → ℝ :=
  fun bq hk sk sq =>
    (∑ bk, ∑ c, saQKV qkv x 1 bk hk sk c) *
      (∑ hq, ∑ f, saQKV qkv x 0 bq hq sq f) * (Real.sqrt Hd)⁻¹

/-- The attention weights of `SelfAttention.forward` (line 261):
`scores = dp.softmax(dim=-1)`.  The mask branch (lines 258-259) computes
`torch.einsum('xy,abcd->abxy', mask, dp)` but never assigns the result, so
`dp` reaches the softmax unchanged and the mask has no effect on the
scores. -/
noncomputable def saScores {L B H Hd : ℕ}
    (qkv : LinearP (H * Hd) (3 * (H * Hd)))
    (x : Fin L → Fin B → Fin (H * Hd) → ℝ) :
    Fin B → Fin H → Fin L → Fin L → ℝ :=
  fun b h s => softmaxF (saDP qkv x b h s)

/-- Line 264: `torch.einsum('qabc,kdef->bqaf', scores, v)` after the
dropout mask `aMask` on the scores (line 262); again no shared indices, so
the result factors into the two sums shown. -/
noncomputable def saWeighted {L B H Hd : ℕ}
    (qkv : LinearP (H * Hd) (3 * (H * Hd)))
    (aMask : Fin B → Fin H → Fin L → Fin L → ℝ)
    (x : Fin L → Fin B → Fin (H * Hd) → ℝ) :
    Fin L → Fin B → Fin H → Fin Hd → ℝ :=
  fun s b h f =>
    (∑ c, aMask b h s c * saScores qkv x b h s c) *
      (∑ bk, ∑ hk, ∑ e, saQKV qkv x 2 bk hk e f)

/-- `SelfAttention.forward` output (lines 265-268): `flatten(2)`, the
output projection, and its dropout mask. -/
noncomputable def selfAttnF {L B H Hd : ℕ}
    (qkv : LinearP (H * Hd) (3 * (H * Hd)))
    (proj : LinearP (H * Hd) (H * Hd))
    (aMask : Fin B → Fin H → Fin L → Fin L → ℝ)
    (pMask : Fin L → Fin B → Fin (H * Hd) → ℝ)
    (x : Fin L → Fin B → Fin (H * Hd) → ℝ) :
    Fin L → Fin B → Fin (H * Hd) → ℝ :=
  fun s b d =>
    pMask s b d *
      linearF proj
        (fun d2 => saWeighted qkv aMask x s b (headIdx d2) (dimIdx d2)) d

/-- `MLP.forward` (lines 369-388): fc1, GELU, dropout, fc2, dropout, at one
(seq, batch) position. -/
noncomputable def mlpF {D Hh : ℕ} (fc1 : LinearP D Hh) (fc2 : LinearP Hh D)
    (m1 : Fin Hh → ℝ) (m2 : Fin D → ℝ) (x : Fin D → ℝ) : Fin D → ℝ :=
  fun d => m2 d * linearF fc2 (fun hh => m1 hh * gelu (linearF fc1 x hh)) d

/-- Parameters and dropout masks of one `EncoderBlock`
(lines 416-433). -/
structure EncBlockP (L B H Hd Hh : ℕ) where
  qkv : LinearP (H * Hd) (3 * (H * Hd))
  proj : LinearP (H * Hd) (H * Hd)
  aMask : Fin B → Fin H → Fin L → Fin L → ℝ
  pMask : Fin L → Fin B → Fin (H * Hd) → ℝ
  g1 : Fin (H * Hd) → ℝ
  c1 : Fin (H * Hd) → ℝ
  fc1 : LinearP (H * Hd) Hh
  fc2 : LinearP Hh (H * Hd)
  mMask1 : Fin L → Fin B → Fin Hh → ℝ
  mMask2 : Fin L → Fin B → Fin (H * Hd) → ℝ
  g2 : Fin (H * Hd) → ℝ
  c2 : Fin (H * Hd) → ℝ

/-- `EncoderBlock.forward` (lines 435-451): self-attention, add & norm,
MLP, add & norm; returns the block output together with the `k`, `v`
tensors of its attention. -/
noncomputable def encoderBlockF {L B H Hd Hh : ℕ} (p : EncBlockP L B H Hd Hh)
    (x : Fin L → Fin B → Fin (H * Hd) → ℝ) :
    (Fin L → Fin B → Fin (H * Hd) → ℝ) ×
      (Fin B → Fin H → Fin L → Fin Hd → ℝ) ×
      (Fin B → Fin H → Fin L → Fin Hd → ℝ) :=
  let attn := selfAttnF p.qkv p.proj p.aMask p.pMask x
  let aan := fun (s : Fin L) (b : Fin B) =>
    layerNormF p.g1 p.c1 (fun d => attn s b d + x s b d)
  let z := fun (s : Fin L) (b : Fin B) =>
    mlpF p.fc1 p.fc2 (p.mMask1 s b) (p.mMask2 s b) (aan s b)
  let out := fun (s : Fin L) (b : Fin B) =>
    layerNormF p.g2 p.c2 (fun d => z s b d + aan s b d)
  (fun s b d => out s b d, saQKV p.qkv x 1, saQKV p.qkv x 2)

/-- The query tensor of `EncoderDecoderAttention.forward` (lines 320-328):
`q = self.q_matrix(x)` reshaped and permuted to
`(batch, heads, tgt_seq, head_dim)`. -/
noncomputable def edQ {T B H Hd : ℕ} (qm : LinearP (H * Hd) (H * Hd))
    (x : Fin T → Fin B → Fin (H * Hd) → ℝ) :
    Fin B → Fin H → Fin T → Fin Hd → ℝ :=
  fun b h t f => linearF qm (x t b) (flatIdx h f)

/-- The score tensor of `EncoderDecoderAttention.forward` (lines 330-331):
`dp = torch.einsum('abkd,abqd->abqk', k, q) * self.scale` — a genuine dot
product over the head dimension.  As in self-attention, the mask einsum of
lines 333-334 is computed but never assigned, so `dp` is unmasked. -/
noncomputable def edDP {S T B H Hd : ℕ}
    (k : Fin B → Fin H → Fin S → Fin Hd → ℝ)
    (q : Fin B → Fin H → Fin T → Fin Hd → ℝ) :
    Fin B → Fin H → Fin T → Fin S → ℝ :=
  fun b h t s => (∑ d, k b h s d * q b h t d) * (Real.sqrt Hd)⁻¹

/-- `EncoderDecoderAttention.forward` (lines 336-345): softmax, attention
dropout, `torch.einsum('abts,abse->tabe', scores, v)`, `flatten(2)`,
projection, projection dropout. -/
noncomputable def encDecAttnF {S T B H Hd : ℕ}
    (qm : LinearP (H * Hd) (H * Hd)) (proj : LinearP (H * Hd) (H * Hd))
    (aMask : Fin B → Fin H → Fin T → Fin S → ℝ)
    (pMask : Fin T → Fin B → Fin (H * Hd) → ℝ)
    (k : Fin B → Fin H → Fin S → Fin Hd → ℝ)
    (v : Fin B → Fin H → Fin S → Fin Hd → ℝ)
    (x : Fin T → Fin B → Fin (H * Hd) → ℝ) :
    Fin T → Fin B → Fin (H * Hd) → ℝ :=
  let scores := fun (b : Fin B) (h : Fin H) (t : Fin T) =>
    softmaxF (edDP k (edQ qm x) b h t)
  let wa := fun (t : Fin T) (b : Fin B) (h : Fin H) (e : Fin Hd) =>
    ∑ s, aMask b h t s * scores b h t s * v b h s e
  fun t b d =>
    pMask t b d *
      linearF proj (fun d2 => wa t b (headIdx d2) (dimIdx d2)) d

/-- Parameters and dropout masks of one `DecoderBlock`
(lines 479-504). -/
structure DecBlockP (S T B H Hd Hh : ℕ) where
  qkv : LinearP (H * Hd) (3 * (H * Hd))
  proj : LinearP (H * Hd) (H * Hd)
  aMask : Fin B → Fin H → Fin T → Fin T → ℝ
  pMask : Fin T → Fin B → Fin (H * Hd) → ℝ
  qm : LinearP (H * Hd) (H * Hd)
  edProj : LinearP (H * Hd) (H * Hd)
  edAMask : Fin B → Fin H → Fin T → Fin S → ℝ
  edPMask : Fin T → Fin B → Fin (H * Hd) → ℝ
  g1 : Fin (H * Hd) → ℝ
  c1 : Fin (H * Hd) → ℝ
  g2 : Fin (H * Hd) → ℝ
  c2 : Fin (H * Hd) → ℝ
  fc1 : LinearP (H * Hd) Hh
  fc2 : LinearP Hh (H * Hd)
  mMask1 : Fin T → Fin B → Fin Hh → ℝ
  mMask2 : Fin T → Fin B → Fin (H * Hd) → ℝ
  g3 : Fin (H * Hd) → ℝ
  c3 : Fin (H * Hd) → ℝ

/-- `DecoderBlock.forward` (lines 506-525): self-attention, add & norm,
encoder-decoder attention, then — as written on line 521 — add the block
input `x` (not the previous sub-layer) & norm, MLP, add & norm. -/
noncomputable def decoderBlockF {S T B H Hd Hh : ℕ}
    (p : DecBlockP S T B H Hd Hh)
    (k : Fin B → Fin H → Fin S → Fin Hd → ℝ)
    (v : Fin B → Fin H → Fin S → Fin Hd → ℝ)
    (x : Fin T → Fin B → Fin (H * Hd) → ℝ) :
    Fin T → Fin B → Fin (H * Hd) → ℝ :=
  let attn := selfAttnF p.qkv p.proj p.aMask p.pMask x
  let aan1 := fun (t : Fin T) (b : Fin B) =>
    layerNormF p.g1 p.c1 (fun d => attn t b d + x t b d)
  let attn2 := encDecAttnF p.qm p.edProj p.edAMask p.edPMask k v
    (fun t b d => aan1 t b d)
  let aan2 := fun (t : Fin T) (b : Fin B) =>
    layerNormF p.g2 p.c2 (fun d => attn2 t b d + x t b d)
  let z := fun (t : Fin T) (b : Fin B) =>
    mlpF p.fc1 p.fc2 (p.mMask1 t b) (p.mMask2 t b) (aan2 t b)
  fun t b d => layerNormF p.g3 p.c3 (fun d2 => z t b d2 + aan2 t b d2) d

/-- Parameters, masks and depth of the whole `Transformer`
(lines 548-601): a shared token embedding, positional encoding with its two
dropout calls (one per `src`/`tgt` pass), the `pos_drop` masks, the
encoder and decoder block stacks, and the output head. -/
structure TransformerP (B S T V H Hd Hh encD decD : ℕ) where
  embedW : Fin V → Fin (H * Hd) → ℝ
  peMaskSrc : Fin S → Fin B → Fin (H * Hd) → ℝ
  pdMaskSrc : Fin S → Fin B → Fin (H * Hd) → ℝ
  peMaskTgt : Fin T → Fin B → Fin (H * Hd) → ℝ
  pdMaskTgt : Fin T → Fin B → Fin (H * Hd) → ℝ
  encBlocks : Fin encD → EncBlockP S B H Hd Hh
  decBlocks : Fin decD → DecBlockP S T B H Hd Hh
  headP : LinearP (H * Hd) V

/-- `Transformer.forward` (lines 607-647): embed and position-encode the
source, run the encoder stack threading `(src, k, v)` (the decoder uses
the `k`, `v` of the LAST encoder block), embed and position-encode the
target, run the decoder stack, apply the head, softmax over the
vocabulary, and `permute(1, 0, 2)` to `(batch, tgt_seq, vocab)`.  The
`src_mask`/`tgt_mask` built by `generate_mask` (lines 619-627) are passed
to the blocks but — the mask einsums being discarded — never affect any
tensor, so they do not appear in the data flow. -/
noncomputable def transformerF {B S T V H Hd Hh encD decD : ℕ}
    (p : TransformerP B S T V H Hd Hh encD decD)
    (src : Fin B → Fin S → Fin V) (tgt : Fin B → Fin T → Fin V) :
    Fin B → Fin T → Fin V → ℝ :=
  let src1 := fun (l : Fin S) (b : Fin B) (d : Fin (H * Hd)) =>
    p.pdMaskSrc l b d * posEncF p.peMaskSrc (embeddingF p.embedW src) l b d
  let encOut :=
    (List.finRange encD).foldl
      (fun st i =>
        let r := encoderBlockF (p.encBlocks i) st.1
        (r.1, r.2.1, r.2.2))
      (src1, fun _ _ _ _ => 0, fun _ _ _ _ => 0)
  let tgt1 := fun (l : Fin T) (b : Fin B) (d : Fin (H * Hd)) =>
    p.pdMaskTgt l b d * posEncF p.peMaskTgt (embeddingF p.embedW tgt) l b d
  let tgtOut :=
    (List.finRange decD).foldl
      (fun cur i => decoderBlockF (p.decBlocks i) encOut.2.1 encOut.2.2 cur)
      tgt1
  fun b t vx => softmaxF (linearF p.headP (tgtOut t b)) vx

/-- C6: for every parameterisation, dropout masks, and source/target
batches of valid token indices, `Transformer.forward` returns a tensor of
shape `(batch, tgt_seq, vocab)` (by its type) in which, at every batch
element and target position, the entries over the vocabulary dimension are
nonnegative and sum to 1 — the distribution produced by the final
softmax. -/
theorem c6_transformer_distribution (B S T V2 H Hd Hh encD decD : ℕ)
    (p : TransformerP B S T (V2 + 1) H Hd Hh encD decD)
    (src : Fin B → Fin S → Fin (V2 + 1)) (tgt : Fin B → Fin T → Fin (V2 + 1))
    (b : Fin B) (t : Fin T) :
    (∑ vx, transformerF p src tgt b t vx) = 1 ∧
    (∀ vx, 0 ≤ transformerF p src tgt b t vx) :=
  ⟨softmaxF_sum_one _, fun vx => softmaxF_nonneg _ vx⟩

/-- All-zero attention parameters at sizes `L = 2`, `B = H = Hd = 1`,
used to evaluate the decoder self-attention at a concrete input. -/
noncomputable def c1Qkv : LinearP (1 * 1) (3 * (1 * 1)) :=
  ⟨fun _ _ => 0, fun _ => 0⟩

/-- A concrete all-zero `(seq, batch, dim)` input of target length 2. -/
noncomputable def c1X : Fin 2 → Fin 1 → Fin (1 * 1) → ℝ := fun _ _ _ => 0

/-- C1 (code bug): `generate_mask` does build the causal mask — `-inf`
above the diagonal — but `SelfAttention.forward` discards the result of
its mask einsum (line 259), so the attention weights are computed from the
unmasked scores: at a concrete target batch of length 2 with zero weights,
the weight that position 0 puts on the future position 1 evaluates to 1/2,
not 0 as the claim requires. -/
theorem c1_mask_not_applied :
    generate_mask 2 0 1 = ⊥ ∧
    saScores c1Qkv c1X 0 0 0 1 = 1 / 2 ∧
    (1 : ℝ) / 2 ≠ 0 := by
  refine ⟨by simp [generate_mask], ?_, by norm_num⟩
  have hdp : saDP c1Qkv c1X 0 0 0 = fun _ => (0 : ℝ) := by
    funext j
    unfold saDP saQKV linearF c1Qkv c1X
    simp
  unfold saScores
  rw [hdp]
  unfold softmaxF
  simp [Real.exp_zero]
